import Mathlib

/-!
Verification of the GAM sorting engine (`src/src/gamsorter.cpp`).

The development embeds the source file shallowly:

* `Position`, `Mapping`, `Path`, `Alignment` model the protobuf value
  types the sorter operates on (the protobuf schema is not part of the
  source unit, so the fields follow the spec's data model, §3).
* `less_than_pos`, `greater_than_pos`, `equal_to_pos` embed
  `GAMSorter::less_than/greater_than/equal_to` on `Position`.
* `get_min_position` embeds `GAMSorter::get_min_position(const Path&)`.
* `sortAlns` embeds `GAMSorter::sort` (a comparison sort by
  `less_than`; `std::sort` guarantees a sorted permutation, modelled
  here by insertion sort with the induced `le`).
* `splitRuns` embeds the run-producer loop of `GAMSorter::stream_sort`
  (buffering, the flush on a full buffer, and the unconditional final
  `finish_buffer()` call).
* `cursor_order`, `extractBest`, `mergeLoop` embed the comparator and
  the k-way merge loop of `stream_sort`; the priority queue is modelled
  by selecting a maximal cursor under `cursor_order` each iteration.
* `write_buffered` and `emitAll` model the output batching
  (`stream::write_buffered`, an external collaborator described in the
  spec, §4.5).
-/

namespace vg

/-- Modelled from the spec: the protobuf `Position` message (identifier,
orientation flag, offset); the schema itself is not under `src/`.  The
spec's data model (§3) declares identifier and offset as unsigned
integers and orientation as a boolean. -/
structure Position where
  node_id : Nat
  is_reverse : Bool
  offset : Nat
deriving DecidableEq, Repr

/-- Modelled from the spec: a path segment (protobuf `Mapping`), which
carries exactly one anchor `Position`. -/
structure Mapping where
  position : Position
deriving DecidableEq, Repr

/-- Modelled from the spec: a protobuf `Path`, an ordered sequence of
segments. -/
structure Path where
  mapping : List Mapping
deriving DecidableEq, Repr

/-- Modelled from the spec: a record (protobuf `Alignment`) carrying a
path of zero or more segments. -/
structure Alignment where
  path : Path
deriving DecidableEq, Repr

/-- The default-constructed `Position()`: the all-zero sentinel. -/
def sentinelPos : Position := ⟨0, false, 0⟩

/-- Numeric value of a C++ `bool` in integer comparisons
(`false < true`). -/
def bNat (b : Bool) : Nat := if b then 1 else 0

/-- `GAMSorter::less_than(const Position&, const Position&)`
(gamsorter.cpp:180-198): lexicographic on node_id, then is_reverse
(compared as C++ bools), then offset. -/
def less_than_pos (a b : Position) : Bool :=
  if a.node_id < b.node_id then true
  else if b.node_id < a.node_id then false
  else if bNat a.is_reverse < bNat b.is_reverse then true
  else if bNat b.is_reverse < bNat a.is_reverse then false
  else if a.offset < b.offset then true
  else false

/-- `GAMSorter::greater_than(const Position&, const Position&)`
(gamsorter.cpp:200-218). -/
def greater_than_pos (a b : Position) : Bool :=
  if b.node_id < a.node_id then true
  else if a.node_id < b.node_id then false
  else if bNat b.is_reverse < bNat a.is_reverse then true
  else if bNat a.is_reverse < bNat b.is_reverse then false
  else if b.offset < a.offset then true
  else false

/-- `GAMSorter::equal_to(const Position&, const Position&)`
(gamsorter.cpp:174-178): field-wise equality. -/
def equal_to_pos (a b : Position) : Bool :=
  decide (a.node_id = b.node_id) && (a.is_reverse == b.is_reverse) &&
    decide (a.offset = b.offset)

/-- One iteration of the scan in `get_min_position`: replace the
running minimum only when the next segment's position is strictly
`less_than` it. -/
def minStep (mn : Position) (other : Mapping) : Position :=
  if less_than_pos other.position mn then other.position else mn

/-- `GAMSorter::get_min_position(const Path&)` (gamsorter.cpp:156-172):
the default `Position()` for an empty path, otherwise the running
minimum of the segments' positions under `less_than`, scanning left to
right and replacing only on strict decrease. -/
def get_min_position (p : Path) : Position :=
  match p.mapping with
  | [] => sentinelPos
  | m :: rest => rest.foldl minStep m.position

/-- `GAMSorter::get_min_position(const Alignment&)`
(gamsorter.cpp:152-154). -/
def get_min_position_aln (a : Alignment) : Position :=
  get_min_position a.path

/-- `GAMSorter::less_than(const Alignment&, const Alignment&)`
(gamsorter.cpp:148-150): compare derived keys. -/
def less_than_aln (a b : Alignment) : Bool :=
  less_than_pos (get_min_position_aln a) (get_min_position_aln b)

/-- The non-strict order induced by `less_than` on records: `a` may
precede `b` exactly when `b` is not strictly less than `a`.  This is
the order in which `std::sort` with comparator `less_than` arranges a
sequence. -/
def alnLe (a b : Alignment) : Prop := less_than_aln b a = false

instance : DecidableRel alnLe := fun a b =>
  inferInstanceAs (Decidable (less_than_aln b a = false))

/-- Characterisation of `less_than_pos` as a lexicographic strict order
on the field triple. -/
lemma less_than_pos_iff (a b : Position) :
    less_than_pos a b = true ↔
      (a.node_id < b.node_id ∨
        (a.node_id = b.node_id ∧
          (bNat a.is_reverse < bNat b.is_reverse ∨
            (bNat a.is_reverse = bNat b.is_reverse ∧ a.offset < b.offset)))) := by
  unfold less_than_pos
  split_ifs <;> simp <;> omega

/-- `less_than_pos` as `false`, negated form of the characterisation. -/
lemma less_than_pos_false_iff (a b : Position) :
    less_than_pos a b = false ↔
      ¬ (a.node_id < b.node_id ∨
        (a.node_id = b.node_id ∧
          (bNat a.is_reverse < bNat b.is_reverse ∨
            (bNat a.is_reverse = bNat b.is_reverse ∧ a.offset < b.offset)))) := by
  rw [← less_than_pos_iff]
  cases h : less_than_pos a b <;> simp [h]

lemma bNat_inj {x y : Bool} (h : bNat x = bNat y) : x = y := by
  cases x <;> cases y <;> simp [bNat] at h ⊢

lemma lt_pos_irrefl (a : Position) : less_than_pos a a = false := by
  rw [less_than_pos_false_iff]; omega

lemma lt_pos_trans {a b c : Position} (h1 : less_than_pos a b = true)
    (h2 : less_than_pos b c = true) : less_than_pos a c = true := by
  rw [less_than_pos_iff] at h1 h2 ⊢; omega

lemma lt_pos_asymm {a b : Position} (h : less_than_pos a b = true) :
    less_than_pos b a = false := by
  rw [less_than_pos_iff] at h; rw [less_than_pos_false_iff]; omega

lemma lt_pos_neg_trans {a b c : Position} (h1 : less_than_pos a b = false)
    (h2 : less_than_pos b c = false) : less_than_pos a c = false := by
  rw [less_than_pos_false_iff] at h1 h2 ⊢; omega

lemma lt_pos_total (a b : Position) :
    less_than_pos a b = false ∨ less_than_pos b a = false := by
  rw [less_than_pos_false_iff, less_than_pos_false_iff]; omega

/-- Incomparability under `less_than_pos` is exactly field-wise
equality of positions. -/
lemma incomp_iff_fields (a b : Position) :
    (less_than_pos a b = false ∧ less_than_pos b a = false) ↔
      (a.node_id = b.node_id ∧ a.is_reverse = b.is_reverse ∧
        a.offset = b.offset) := by
  rw [less_than_pos_false_iff, less_than_pos_false_iff]
  constructor
  · intro h
    have hn : a.node_id = b.node_id := by omega
    have hr : bNat a.is_reverse = bNat b.is_reverse := by omega
    exact ⟨hn, bNat_inj hr, by omega⟩
  · rintro ⟨hn, hr, ho⟩
    rw [hr] at *
    omega

/-- `GAMSorter::sort(vector<Alignment>&)` (gamsorter.cpp:15-19):
`std::sort` with comparator `less_than`; its contract is a permutation
arranged so that no later element is `less_than` an earlier one,
modelled by insertion sort under the induced non-strict order
`alnLe`. -/
def sortAlns (l : List Alignment) : List Alignment :=
  List.insertionSort alnLe l

/-- The run-producer loop of `GAMSorter::stream_sort`
(gamsorter.cpp:42-73): accumulate records into `buf`; after each push,
if the buffer holds exactly `B` records, flush it as a run; after the
input ends, `finish_buffer()` is called unconditionally, producing one
final (possibly empty) run. -/
def runsAux (B : Nat) : List Alignment → List Alignment → List (List Alignment)
  | buf, [] => [buf]
  | buf, x :: xs =>
      if (buf ++ [x]).length = B then (buf ++ [x]) :: runsAux B [] xs
      else runsAux B (buf ++ [x]) xs

/-- The sequence of batches spilled as runs by `stream_sort` for input
`xs` and `max_buf_size = B` (before each batch is sorted). -/
def splitRuns (B : Nat) (xs : List Alignment) : List (List Alignment) :=
  runsAux B [] xs

/-- The comparator `cursor_order` of `stream_sort`
(gamsorter.cpp:80-89), on cursor states.  A cursor over a run is
modelled by the list of records it has not yet consumed: `has_next` is
non-emptiness and the current record is the head.  `cursor_order a b`
is the priority-queue "before" relation: cursors that are empty sort
below all others, and otherwise the order is reversed record order, so
that the queue's maximum is the cursor with the smallest current
record. -/
def cursor_order (a b : List Alignment) : Bool :=
  match b with
  | [] => false
  | y :: _ =>
      match a with
      | [] => true
      | x :: _ => less_than_aln y x

/-- The priority queue of `stream_sort`, abstracted: return a maximal
cursor under `cursor_order` together with the remaining cursors
(`none` on an empty queue).  Ties are resolved deterministically (the
later of two equivalent cursors is kept); the C++ heap leaves tie order
unspecified, and no claim depends on it. -/
def extractBest : List (List Alignment) →
    Option (List Alignment × List (List Alignment))
  | [] => none
  | c :: rest =>
      match extractBest rest with
      | none => some (c, [])
      | some (b, others) =>
          if cursor_order b c then some (c, rest) else some (b, c :: others)

/-- The k-way merge loop of `stream_sort` (gamsorter.cpp:119-140):
while the queue is non-empty and the top cursor has a record, pop the
winner, emit its current record, advance it, and push it back unless
depleted.  `fuel` bounds the iteration count; `mergeRuns` supplies the
exact number of records so the loop runs to completion. -/
def mergeLoop : Nat → List (List Alignment) → List Alignment
  | 0, _ => []
  | Nat.succ fuel, cs =>
      match extractBest cs with
      | none => []
      | some (b, others) =>
          match b with
          | [] => []
          | x :: rest =>
              x :: mergeLoop fuel (if rest.isEmpty then others else rest :: others)

/-- The merge phase of `stream_sort` applied to a list of cursors, one
per run, each starting at its run's first record. -/
def mergeRuns (cs : List (List Alignment)) : List Alignment :=
  mergeLoop cs.flatten.length cs

/-- Modelled from the spec: `stream::write_buffered(out, buffer, limit)`
(an external collaborator, spec §4.5): when the buffer size reaches
the threshold, append the whole buffer to the output and clear it;
threshold 0 forces a flush.  Returns the new (output, buffer) pair. -/
def write_buffered (out buf : List Alignment) (limit : Nat) :
    List Alignment × List Alignment :=
  if limit ≤ buf.length then (out ++ buf, []) else (out, buf)

/-- The output-batching pattern shared by `dumb_sort` and
`stream_sort` (gamsorter.cpp:31-37 and 118-143): push each emitted
record onto a buffer, calling `write_buffered` with threshold 1000
after each push, and finish with a forced flush at threshold 0. -/
def emitAll (emitted : List Alignment) : List Alignment :=
  (write_buffered
    (emitted.foldl (fun st a => write_buffered st.1 (st.2 ++ [a]) 1000)
      (([], []) : List Alignment × List Alignment)).1
    (emitted.foldl (fun st a => write_buffered st.1 (st.2 ++ [a]) 1000)
      (([], []) : List Alignment × List Alignment)).2
    0).1

/-- `GAMSorter::dumb_sort` (gamsorter.cpp:21-38): read the whole
stream, sort it in memory, and write it out through the output
batcher. -/
def dumb_sort (input : List Alignment) : List Alignment :=
  emitAll (sortAlns input)

/-- `GAMSorter::stream_sort` (gamsorter.cpp:40-146): split the input
into batches of `B` (`max_buf_size`) records, sort each batch and
spill it as a run, then k-way-merge the runs through the output
batcher. -/
def stream_sort (B : Nat) (input : List Alignment) : List Alignment :=
  emitAll (mergeRuns ((splitRuns B input).map sortAlns))

lemma lt_aln_irrefl (a : Alignment) : less_than_aln a a = false :=
  lt_pos_irrefl _

lemma lt_aln_trans {a b c : Alignment} (h1 : less_than_aln a b = true)
    (h2 : less_than_aln b c = true) : less_than_aln a c = true :=
  lt_pos_trans h1 h2

lemma alnLe_refl (a : Alignment) : alnLe a a := lt_aln_irrefl a

lemma alnLe_trans {a b c : Alignment} (h1 : alnLe a b) (h2 : alnLe b c) :
    alnLe a c :=
  lt_pos_neg_trans h2 h1

lemma alnLe_total (a b : Alignment) : alnLe a b ∨ alnLe b a :=
  (lt_pos_total _ _).symm

instance : IsTotal Alignment alnLe := ⟨alnLe_total⟩

instance : IsTrans Alignment alnLe := ⟨fun _ _ _ => alnLe_trans⟩

lemma cursor_order_irrefl (c : List Alignment) : cursor_order c c = false := by
  cases c with
  | nil => rfl
  | cons x xs => simpa [cursor_order] using lt_aln_irrefl x

lemma cursor_order_trans {a b c : List Alignment}
    (h1 : cursor_order a b = true) (h2 : cursor_order b c = true) :
    cursor_order a c = true := by
  cases c with
  | nil => simp [cursor_order] at h2
  | cons z zs =>
    cases b with
    | nil => simp [cursor_order] at h1
    | cons y ys =>
      cases a with
      | nil => simp [cursor_order]
      | cons x xs =>
        simp only [cursor_order] at h1 h2 ⊢
        exact lt_aln_trans h2 h1

lemma cursor_order_nil_left {c : List Alignment} (h : c ≠ []) :
    cursor_order [] c = true := by
  cases c with
  | nil => exact absurd rfl h
  | cons y ys => rfl

/-- `extractBest` returns `none` exactly on the empty queue. -/
lemma extractBest_eq_none {cs : List (List Alignment)} :
    extractBest cs = none ↔ cs = [] := by
  cases cs with
  | nil => simp [extractBest]
  | cons c rest =>
    simp only [extractBest]
    cases h : extractBest rest with
    | none => simp
    | some p =>
      obtain ⟨b, others⟩ := p
      by_cases hc : cursor_order b c = true <;> simp [hc]

/-- The cursor returned by `extractBest` together with the leftover
cursors is a permutation of the original queue. -/
lemma extractBest_perm {cs : List (List Alignment)}
    {b : List Alignment} {others : List (List Alignment)}
    (h : extractBest cs = some (b, others)) : cs.Perm (b :: others) := by
  induction cs generalizing b others with
  | nil => simp [extractBest] at h
  | cons c rest ih =>
    simp only [extractBest] at h
    cases hr : extractBest rest with
    | none =>
      rw [hr] at h
      obtain rfl := extractBest_eq_none.mp hr
      simp only [Option.some.injEq, Prod.mk.injEq] at h
      obtain ⟨rfl, rfl⟩ := h
      exact List.Perm.refl _
    | some p =>
      obtain ⟨b0, o0⟩ := p
      rw [hr] at h
      by_cases hc : cursor_order b0 c = true
      · simp only [hc, if_true, Option.some.injEq, Prod.mk.injEq] at h
        obtain ⟨rfl, rfl⟩ := h
        exact List.Perm.refl _
      · simp only [hc, if_false, Option.some.injEq, Prod.mk.injEq] at h
        obtain ⟨rfl, rfl⟩ := h
        exact ((ih hr).cons c).trans (List.Perm.swap _ _ _)

/-- The cursor returned by `extractBest` is maximal under
`cursor_order`: the queue holds no cursor strictly "after" it, i.e. it
is a top of the priority queue. -/
lemma extractBest_max {cs : List (List Alignment)}
    {b : List Alignment} {others : List (List Alignment)}
    (h : extractBest cs = some (b, others)) :
    ∀ c ∈ cs, cursor_order b c = false := by
  induction cs generalizing b others with
  | nil => simp [extractBest] at h
  | cons c rest ih =>
    simp only [extractBest] at h
    cases hr : extractBest rest with
    | none =>
      rw [hr] at h
      obtain rfl := extractBest_eq_none.mp hr
      simp only [Option.some.injEq, Prod.mk.injEq] at h
      obtain ⟨rfl, rfl⟩ := h
      intro d hd
      rcases List.mem_singleton.mp hd with rfl
      exact cursor_order_irrefl _
    | some p =>
      obtain ⟨b0, o0⟩ := p
      rw [hr] at h
      by_cases hc : cursor_order b0 c = true
      · simp only [hc, if_true, Option.some.injEq, Prod.mk.injEq] at h
        obtain ⟨rfl, rfl⟩ := h
        intro d hd
        rcases List.mem_cons.mp hd with rfl | hd
        · exact cursor_order_irrefl _
        · by_contra hcd
          rw [Bool.not_eq_false] at hcd
          have : cursor_order b0 d = true := cursor_order_trans hc hcd
          rw [ih hr d hd] at this
          exact Bool.false_ne_true this
      · simp only [hc, if_false, Option.some.injEq, Prod.mk.injEq] at h
        obtain ⟨rfl, rfl⟩ := h
        intro d hd
        rcases List.mem_cons.mp hd with rfl | hd
        · exact Bool.not_eq_true _ |>.mp hc
        · exact ih hr d hd

/-- If `extractBest` hands back an empty cursor as the winner then the
whole queue consisted of empty cursors. -/
lemma extractBest_empty_winner {cs os : List (List Alignment)}
    (h : extractBest cs = some ([], os)) : ∀ c ∈ cs, c = [] := by
  intro c hc
  by_contra hne
  have := extractBest_max h c hc
  rw [cursor_order_nil_left hne] at this
  exact Bool.noConfusion this

lemma flatten_perm_of_perm {cs1 cs2 : List (List Alignment)}
    (h : cs1.Perm cs2) : cs1.flatten.Perm cs2.flatten := by
  induction h with
  | nil => exact List.Perm.refl _
  | cons x _ ih => simpa using ih.append_left x
  | swap x y l =>
    simp only [List.flatten_cons]
    rw [← List.append_assoc, ← List.append_assoc]
    exact List.perm_append_comm.append_right _
  | trans _ _ ih1 ih2 => exact ih1.trans ih2

/-- Advancing the winning cursor: push the advanced cursor back unless
depleted.  Its flattened content is the winner's tail followed by the
other cursors' contents. -/
lemma advance_flatten {rest : List Alignment} {os : List (List Alignment)} :
    (if rest.isEmpty then os else rest :: os).flatten = rest ++ os.flatten := by
  cases rest <;> simp

/-- With fuel equal to the number of buffered records, the merge loop
emits a permutation of the contents of all cursors. -/
lemma mergeLoop_perm : ∀ (fuel : Nat) (cs : List (List Alignment)),
    fuel = cs.flatten.length → (mergeLoop fuel cs).Perm cs.flatten := by
  intro fuel
  induction fuel with
  | zero =>
    intro cs h
    have hnil : cs.flatten = [] := List.length_eq_zero.mp h.symm
    rw [mergeLoop, hnil]
  | succ fuel ih =>
    intro cs h
    cases hx : extractBest cs with
    | none =>
      obtain rfl := extractBest_eq_none.mp hx
      simp at h
    | some p =>
      obtain ⟨b, os⟩ := p
      cases b with
      | nil =>
        have hnil : cs.flatten = [] :=
          List.flatten_eq_nil_iff.mpr (extractBest_empty_winner hx)
        rw [hnil] at h
        simp at h
      | cons x rest =>
        have hflat : cs.flatten.Perm (x :: (rest ++ os.flatten)) := by
          simpa using flatten_perm_of_perm (extractBest_perm hx)
        have hlen : fuel = (if rest.isEmpty then os else rest :: os).flatten.length := by
          have hl := hflat.length_eq
          rw [advance_flatten]
          simp only [List.length_cons] at hl
          omega
        simp only [mergeLoop, hx]
        refine ((ih _ hlen).cons x).trans ?_
        rw [advance_flatten]
        exact hflat.symm

/-- Every record the merge loop emits comes from one of the cursors. -/
lemma mergeLoop_mem : ∀ (fuel : Nat) (cs : List (List Alignment))
    (y : Alignment), y ∈ mergeLoop fuel cs → ∃ r ∈ cs, y ∈ r := by
  intro fuel
  induction fuel with
  | zero => intro cs y hy; rw [mergeLoop] at hy; exact absurd hy (List.not_mem_nil y)
  | succ fuel ih =>
    intro cs y hy
    cases hx : extractBest cs with
    | none => rw [mergeLoop, hx] at hy; exact absurd hy (List.not_mem_nil y)
    | some p =>
      obtain ⟨b, os⟩ := p
      cases b with
      | nil => rw [mergeLoop, hx] at hy; exact absurd hy (List.not_mem_nil y)
      | cons x rest =>
        rw [mergeLoop, hx] at hy
        have hbcs : (x :: rest) ∈ cs :=
          (extractBest_perm hx).mem_iff.mpr (List.mem_cons_self _ _)
        rcases List.mem_cons.mp hy with hxy | hy
        · subst hxy
          exact ⟨_, hbcs, List.mem_cons_self _ _⟩
        · rcases ih _ y hy with ⟨r, hr, hyr⟩
          by_cases hrest : rest.isEmpty
          · rw [if_pos hrest] at hr
            exact ⟨r, (extractBest_perm hx).mem_iff.mpr (List.mem_cons_of_mem _ hr), hyr⟩
          · rw [if_neg hrest] at hr
            rcases List.mem_cons.mp hr with hrr | hr
            · subst hrr
              exact ⟨_, hbcs, List.mem_cons_of_mem _ hyr⟩
            · exact ⟨r, (extractBest_perm hx).mem_iff.mpr (List.mem_cons_of_mem _ hr), hyr⟩

/-- If every cursor's remaining content is sorted, the merge loop's
output is sorted: the winning cursor's current record is not greater
than any record still buffered anywhere. -/
lemma mergeLoop_sorted : ∀ (fuel : Nat) (cs : List (List Alignment)),
    (∀ r ∈ cs, r.Sorted alnLe) → (mergeLoop fuel cs).Sorted alnLe := by
  intro fuel
  induction fuel with
  | zero => intro cs _; rw [mergeLoop]; exact List.sorted_nil
  | succ fuel ih =>
    intro cs hs
    cases hx : extractBest cs with
    | none => rw [mergeLoop, hx]; exact List.sorted_nil
    | some p =>
      obtain ⟨b, os⟩ := p
      cases b with
      | nil => rw [mergeLoop, hx]; exact List.sorted_nil
      | cons x rest =>
        rw [mergeLoop, hx]
        have hbcs : (x :: rest) ∈ cs :=
          (extractBest_perm hx).mem_iff.mpr (List.mem_cons_self _ _)
        have hbsorted := hs _ hbcs
        have hmax := extractBest_max hx
        have hos : ∀ r ∈ os, r ∈ cs := fun r hr =>
          (extractBest_perm hx).mem_iff.mpr (List.mem_cons_of_mem _ hr)
        have hs' : ∀ r ∈ (if rest.isEmpty then os else rest :: os), r.Sorted alnLe := by
          intro r hr
          by_cases hrest : rest.isEmpty
          · rw [if_pos hrest] at hr
            exact hs _ (hos _ hr)
          · rw [if_neg hrest] at hr
            rcases List.mem_cons.mp hr with rfl | hr
            · exact hbsorted.of_cons
            · exact hs _ (hos _ hr)
        rw [List.sorted_cons]
        refine ⟨?_, ih _ hs'⟩
        intro y hy
        rcases mergeLoop_mem _ _ y hy with ⟨r, hr, hyr⟩
        by_cases hrest : rest.isEmpty
        · rw [if_pos hrest] at hr
          -- y lives in one of the other cursors
          rcases r with _ | ⟨z, zs⟩
          · exact absurd hyr (List.not_mem_nil y)
          · have hzx : less_than_aln z x = false := by
              have := hmax _ (hos _ hr)
              simpa [cursor_order] using this
            rcases List.mem_cons.mp hyr with rfl | hyz
            · exact hzx
            · exact alnLe_trans hzx (List.rel_of_sorted_cons (hs _ (hos _ hr)) y hyz)
        · rw [if_neg hrest] at hr
          rcases List.mem_cons.mp hr with rfl | hr
          · exact List.rel_of_sorted_cons hbsorted y hyr
          · rcases r with _ | ⟨z, zs⟩
            · exact absurd hyr (List.not_mem_nil y)
            · have hzx : less_than_aln z x = false := by
                have := hmax _ (hos _ hr)
                simpa [cursor_order] using this
              rcases List.mem_cons.mp hyr with rfl | hyz
              · exact hzx
              · exact alnLe_trans hzx (List.rel_of_sorted_cons (hs _ (hos _ hr)) y hyz)

lemma sortAlns_sorted (l : List Alignment) : (sortAlns l).Sorted alnLe :=
  List.sorted_insertionSort alnLe l

lemma sortAlns_perm (l : List Alignment) : (sortAlns l).Perm l :=
  List.perm_insertionSort alnLe l

/-- The batches spilled by the run producer concatenate back to the
input: no record is lost or duplicated by batching. -/
lemma runsAux_flatten (B : Nat) : ∀ (xs buf : List Alignment),
    (runsAux B buf xs).flatten = buf ++ xs := by
  intro xs
  induction xs with
  | nil => intro buf; simp [runsAux]
  | cons x xs ih =>
    intro buf
    rw [runsAux]
    split_ifs with h
    · simp [ih]
    · rw [ih]
      simp

lemma splitRuns_flatten (B : Nat) (xs : List Alignment) :
    (splitRuns B xs).flatten = xs := by
  rw [splitRuns, runsAux_flatten]
  rfl

/-- Run count of the producer: one run per full batch, plus the final
(possibly empty) run from the unconditional `finish_buffer()` call. -/
lemma runsAux_length (B : Nat) (hB : 1 ≤ B) : ∀ (xs buf : List Alignment),
    buf.length < B →
    (runsAux B buf xs).length = (buf.length + xs.length) / B + 1 := by
  intro xs
  induction xs with
  | nil =>
    intro buf h
    simp [runsAux, Nat.div_eq_of_lt h]
  | cons x xs ih =>
    intro buf h
    rw [runsAux]
    split_ifs with hfull
    · rw [List.length_cons, ih [] (by simpa using hB)]
      simp only [List.length_append, List.length_cons, List.length_nil,
        Nat.zero_add] at hfull ⊢
      have hnum : buf.length + (xs.length + 1) = xs.length + B := by omega
      rw [hnum, Nat.add_div_right _ (by omega)]
    · have hlen : (buf ++ [x]).length < B := by
        simp only [List.length_append, List.length_cons, List.length_nil] at hfull ⊢
        omega
      rw [ih _ hlen]
      simp only [List.length_append, List.length_cons, List.length_nil]
      have hnum : buf.length + 1 + xs.length = buf.length + (xs.length + 1) := by omega
      rw [hnum]

lemma splitRuns_length (B : Nat) (hB : 1 ≤ B) (xs : List Alignment) :
    (splitRuns B xs).length = xs.length / B + 1 := by
  rw [splitRuns, runsAux_length B hB xs [] (by simpa using hB)]
  simp

/-- The output batcher is the identity on the emitted sequence: each
flush appends the buffered records in order, and the final forced
flush drains the remainder. -/
lemma emitAll_foldl (l : List Alignment) :
    ∀ st : List Alignment × List Alignment,
    (l.foldl (fun st a => write_buffered st.1 (st.2 ++ [a]) 1000) st).1 ++
      (l.foldl (fun st a => write_buffered st.1 (st.2 ++ [a]) 1000) st).2 =
      st.1 ++ st.2 ++ l := by
  induction l with
  | nil => intro st; simp
  | cons a l ih =>
    intro st
    rw [List.foldl_cons, ih]
    unfold write_buffered
    split_ifs <;> simp

lemma emitAll_id (l : List Alignment) : emitAll l = l := by
  unfold emitAll
  rw [write_buffered, if_pos (Nat.zero_le _)]
  simpa using emitAll_foldl l ([], [])

/-- The sorted runs concatenate to a permutation of the input. -/
lemma runs_flatten_perm (B : Nat) (xs : List Alignment) :
    ((splitRuns B xs).map sortAlns).flatten.Perm xs := by
  have h2 : List.Forall₂ (·.Perm ·) ((splitRuns B xs).map sortAlns) (splitRuns B xs) := by
    rw [List.forall₂_map_left_iff]
    rw [List.forall₂_same]
    intro r _
    exact sortAlns_perm r
  exact (List.Perm.flatten_congr h2).trans (by rw [splitRuns_flatten])

lemma stream_sort_perm (B : Nat) (input : List Alignment) :
    (stream_sort B input).Perm input := by
  unfold stream_sort mergeRuns
  rw [emitAll_id]
  exact (mergeLoop_perm _ _ rfl).trans (runs_flatten_perm B input)

lemma stream_sort_sorted (B : Nat) (input : List Alignment) :
    (stream_sort B input).Sorted alnLe := by
  unfold stream_sort mergeRuns
  rw [emitAll_id]
  apply mergeLoop_sorted
  intro r hr
  rcases List.mem_map.mp hr with ⟨r0, _, rfl⟩
  exact sortAlns_sorted r0

lemma dumb_sort_perm (input : List Alignment) :
    (dumb_sort input).Perm input := by
  unfold dumb_sort
  rw [emitAll_id]
  exact sortAlns_perm input

lemma dumb_sort_sorted (input : List Alignment) :
    (dumb_sort input).Sorted alnLe := by
  unfold dumb_sort
  rw [emitAll_id]
  exact sortAlns_sorted input

/-- The scan of `get_min_position` returns the seed or one of the
scanned anchors. -/
lemma foldl_minStep_mem (l : List Mapping) : ∀ init : Position,
    l.foldl minStep init = init ∨ ∃ m ∈ l, l.foldl minStep init = m.position := by
  induction l with
  | nil => intro init; left; rfl
  | cons m l ih =>
    intro init
    rw [List.foldl_cons]
    rcases ih (minStep init m) with h | ⟨m2, hm2, h⟩
    · by_cases hlt : less_than_pos m.position init = true
      · right
        exact ⟨m, List.mem_cons_self _ _, by rw [h]; simp [minStep, hlt]⟩
      · left
        rw [h]
        simp [minStep, hlt]
    · exact Or.inr ⟨m2, List.mem_cons_of_mem _ hm2, h⟩

/-- No scanned anchor, and not the seed either, is strictly below the
scan's result. -/
lemma foldl_minStep_min (l : List Mapping) : ∀ (init : Position) (q : Position),
    (q = init ∨ ∃ m ∈ l, q = m.position) →
    less_than_pos q (l.foldl minStep init) = false := by
  induction l with
  | nil =>
    intro init q hq
    rcases hq with rfl | ⟨m, hm, _⟩
    · exact lt_pos_irrefl q
    · exact absurd hm (List.not_mem_nil m)
  | cons m l ih =>
    intro init q hq
    rw [List.foldl_cons]
    by_cases hlt : less_than_pos m.position init = true
    · have hstep : minStep init m = m.position := by simp [minStep, hlt]
      rcases hq with rfl | ⟨m2, hm2, rfl⟩
      · -- q = init: if q were below the result, so would be m.position
        by_contra hcon
        rw [Bool.not_eq_false] at hcon
        have hmq : less_than_pos m.position (l.foldl minStep (minStep q m)) = true :=
          lt_pos_trans hlt hcon
        have := ih (minStep q m) m.position (Or.inl hstep.symm)
        rw [this] at hmq
        exact Bool.noConfusion hmq
      · rcases List.mem_cons.mp hm2 with rfl | hm2
        · exact ih _ _ (Or.inl hstep.symm)
        · exact ih _ _ (Or.inr ⟨m2, hm2, rfl⟩)
    · have hstep : minStep init m = init := by simp [minStep, hlt]
      rw [hstep]
      rcases hq with rfl | ⟨m2, hm2, rfl⟩
      · exact ih _ _ (Or.inl rfl)
      · rcases List.mem_cons.mp hm2 with rfl | hm2
        · -- q = m.position, not below init, and init not below the result
          have hres := ih init init (Or.inl rfl)
          exact lt_pos_neg_trans (Bool.not_eq_true _ |>.mp hlt) hres
        · exact ih _ _ (Or.inr ⟨m2, hm2, rfl⟩)

/-- The field triple of a position; two positions are equivalent under
the Ordering Model exactly when their triples are equal. -/
def trip (p : Position) : Nat × Nat × Nat :=
  (p.node_id, bNat p.is_reverse, p.offset)

/-- Lexicographic non-strict order on field triples. -/
def tripLe (x y : Nat × Nat × Nat) : Prop :=
  x.1 < y.1 ∨ (x.1 = y.1 ∧ (x.2.1 < y.2.1 ∨ (x.2.1 = y.2.1 ∧ x.2.2 ≤ y.2.2)))

/-- The derived key triple of a record. -/
def keyT (a : Alignment) : Nat × Nat × Nat :=
  trip (get_min_position_aln a)

instance : IsAntisymm (Nat × Nat × Nat) tripLe := by
  constructor
  intro x y h1 h2
  obtain ⟨x1, x2, x3⟩ := x
  obtain ⟨y1, y2, y3⟩ := y
  simp only [tripLe] at h1 h2
  simp only [Prod.mk.injEq]
  omega

lemma alnLe_iff_tripLe (a b : Alignment) :
    alnLe a b ↔ tripLe (keyT a) (keyT b) := by
  show less_than_aln b a = false ↔ _
  unfold less_than_aln
  rw [less_than_pos_false_iff]
  unfold keyT trip tripLe
  dsimp only
  omega

lemma empty_path_key (a : Alignment) (h : a.path.mapping = []) :
    get_min_position_aln a = sentinelPos := by
  unfold get_min_position_aln get_min_position
  rw [h]

/-- Nothing is strictly `less_than` the all-zero sentinel. -/
lemma nothing_below_sentinel (q : Position) :
    less_than_pos q sentinelPos = false := by
  rw [less_than_pos_false_iff]
  simp [sentinelPos, bNat]

/-- The all-zero sentinel is `greater_than` nothing. -/
lemma sentinel_not_greater (q : Position) :
    greater_than_pos sentinelPos q = false := by
  unfold greater_than_pos sentinelPos bNat
  split_ifs <;> simp_all

/-- Claim C1: for every input stream and every configured batch size,
the record sequence produced by the external sort pipeline
`stream_sort` is non-decreasing under the Ordering Model applied to
each record's derived key (`alnLe a b` is exactly "the derived key of
`b` is not `less_than` the derived key of `a`"). -/
theorem stream_sort_nondecreasing (B : Nat) (input : List Alignment) :
    (stream_sort B input).Sorted alnLe :=
  stream_sort_sorted B input

/-- Claim C2: for every input stream, including the empty one, and
every configured batch size, the output of the external sort pipeline
`stream_sort` is a permutation of the input: exactly the same multiset
of records, no loss and no duplication. -/
theorem stream_sort_multiset_preserved (B : Nat) (input : List Alignment) :
    (stream_sort B input).Perm input :=
  stream_sort_perm B input

/-- Claim C3: `less_than` on `Position` is the lexicographic
comparison — identifier ascending, then orientation ascending with
`false` before `true`, then offset ascending — and two positions with
all three fields equal are incomparable in both directions. -/
theorem less_than_lexicographic (a b : Position) :
    (less_than_pos a b = true ↔
      (a.node_id < b.node_id ∨
        (a.node_id = b.node_id ∧
          ((a.is_reverse = false ∧ b.is_reverse = true) ∨
            (a.is_reverse = b.is_reverse ∧ a.offset < b.offset))))) ∧
    (a.node_id = b.node_id → a.is_reverse = b.is_reverse →
      a.offset = b.offset →
      less_than_pos a b = false ∧ less_than_pos b a = false) := by
  constructor
  · rw [less_than_pos_iff]
    cases ha : a.is_reverse <;> cases hb : b.is_reverse <;> simp [bNat]
  · intro h1 h2 h3
    exact (incomp_iff_fields a b).mpr ⟨h1, h2, h3⟩

/-- Witness for C3 at a concrete pair of equal positions. -/
theorem less_than_lexicographic_witness :
    less_than_pos ⟨7, true, 3⟩ ⟨7, true, 3⟩ = false ∧
      less_than_pos ⟨7, true, 3⟩ ⟨7, true, 3⟩ = false :=
  (less_than_lexicographic ⟨7, true, 3⟩ ⟨7, true, 3⟩).2 rfl rfl rfl

/-- Claim C4: `get_min_position` returns the all-zero sentinel on an
empty path, and otherwise one of the path's anchor positions with no
anchor strictly `less_than` it — the minimum of the anchors under the
Ordering Model. -/
theorem get_min_position_min_or_sentinel (p : Path) :
    (p.mapping = [] → get_min_position p = sentinelPos) ∧
    (p.mapping ≠ [] →
      get_min_position p ∈ p.mapping.map Mapping.position ∧
      ∀ q ∈ p.mapping.map Mapping.position,
        less_than_pos q (get_min_position p) = false) := by
  cases hm : p.mapping with
  | nil =>
    refine ⟨fun _ => ?_, fun h => absurd rfl h⟩
    unfold get_min_position
    rw [hm]
  | cons m rest =>
    refine ⟨fun h => absurd h (by simp), fun _ => ?_⟩
    have hval : get_min_position p = rest.foldl minStep m.position := by
      unfold get_min_position
      rw [hm]
    constructor
    · rw [hval]
      rcases foldl_minStep_mem rest m.position with h | ⟨m2, hm2, h⟩
      · rw [h]
        exact List.mem_map.mpr ⟨m, List.mem_cons_self _ _, rfl⟩
      · rw [h]
        exact List.mem_map.mpr ⟨m2, List.mem_cons_of_mem _ hm2, rfl⟩
    · intro q hq
      rw [hval]
      rcases List.mem_map.mp hq with ⟨m2, hm2, rfl⟩
      rcases List.mem_cons.mp hm2 with rfl | hm2
      · exact foldl_minStep_min rest _ _ (Or.inl rfl)
      · exact foldl_minStep_min rest _ _ (Or.inr ⟨m2, hm2, rfl⟩)

/-- Witness for C4 at a concrete two-segment path. -/
theorem get_min_position_min_or_sentinel_witness :
    get_min_position ⟨[⟨⟨2, false, 5⟩⟩, ⟨⟨1, true, 3⟩⟩]⟩ ∈
        ([⟨⟨2, false, 5⟩⟩, ⟨⟨1, true, 3⟩⟩] : List Mapping).map Mapping.position ∧
      ∀ q ∈ ([⟨⟨2, false, 5⟩⟩, ⟨⟨1, true, 3⟩⟩] : List Mapping).map Mapping.position,
        less_than_pos q (get_min_position ⟨[⟨⟨2, false, 5⟩⟩, ⟨⟨1, true, 3⟩⟩]⟩) = false :=
  (get_min_position_min_or_sentinel ⟨[⟨⟨2, false, 5⟩⟩, ⟨⟨1, true, 3⟩⟩]⟩).2 (by decide)

/-- Claim C5: the derived key of a record with an empty path (the
sentinel) is never greater than the derived key of a record with a
non-sentinel key — neither `greater_than`, nor `less_than` in the
reverse direction — and the derived keys of two empty-path records are
incomparable in both directions (equivalent in order). -/
theorem empty_path_sorts_first (a b : Alignment)
    (ha : a.path.mapping = []) :
    (get_min_position_aln b ≠ sentinelPos →
      less_than_pos (get_min_position_aln b) (get_min_position_aln a) = false ∧
        greater_than_pos (get_min_position_aln a) (get_min_position_aln b) = false) ∧
    (b.path.mapping = [] →
      less_than_pos (get_min_position_aln a) (get_min_position_aln b) = false ∧
        less_than_pos (get_min_position_aln b) (get_min_position_aln a) = false) := by
  rw [empty_path_key a ha]
  exact ⟨fun _ => ⟨nothing_below_sentinel _, sentinel_not_greater _⟩,
    fun hb => by rw [empty_path_key b hb]; exact ⟨lt_pos_irrefl _, lt_pos_irrefl _⟩⟩

/-- Witness for C5: an unmapped record against a record anchored at
node 1. -/
theorem empty_path_sorts_first_witness :
    less_than_pos (get_min_position_aln ⟨⟨[⟨⟨1, false, 0⟩⟩]⟩⟩)
        (get_min_position_aln ⟨⟨[]⟩⟩) = false ∧
      greater_than_pos (get_min_position_aln ⟨⟨[]⟩⟩)
        (get_min_position_aln ⟨⟨[⟨⟨1, false, 0⟩⟩]⟩⟩) = false :=
  (empty_path_sorts_first ⟨⟨[]⟩⟩ ⟨⟨[⟨⟨1, false, 0⟩⟩]⟩⟩ rfl).1 (by decide)

/-- Counterexample to claim C6 as stated: the claim predicts
`⌈n / B⌉` runs, hence zero runs for an empty input, but the run
producer calls `finish_buffer()` unconditionally after the input loop
(gamsorter.cpp:73), so the empty input yields one (empty) run. -/
theorem run_count_claim_cex :
    ¬ ((splitRuns 2 ([] : List Alignment)).length = 0) := by
  simp [splitRuns, runsAux]

/-- Claim C6 as amended: for batch size `B ≥ 1` and an input of `n`
records, the run producer creates exactly `⌊n / B⌋ + 1` runs — one per
full batch plus one final, possibly empty, run; in particular the
empty input creates one empty run. -/
theorem run_count_corrected (B : Nat) (hB : 1 ≤ B) (input : List Alignment) :
    (splitRuns B input).length = input.length / B + 1 :=
  splitRuns_length B hB input

/-- Witness for the amended C6: five records with batch size 2 give
three runs (sizes 2, 2, 1), matching the spec's scenario 3. -/
theorem run_count_corrected_witness :
    1 ≤ 2 ∧
      (splitRuns 2 [(⟨⟨[]⟩⟩ : Alignment), ⟨⟨[]⟩⟩, ⟨⟨[]⟩⟩, ⟨⟨[]⟩⟩, ⟨⟨[]⟩⟩]).length =
        [(⟨⟨[]⟩⟩ : Alignment), ⟨⟨[]⟩⟩, ⟨⟨[]⟩⟩, ⟨⟨[]⟩⟩, ⟨⟨[]⟩⟩].length / 2 + 1 :=
  ⟨by decide, run_count_corrected 2 (by decide) _⟩

/-- Claim C7: `less_than` on `Position` is a strict weak ordering:
irreflexive, transitive, and its incomparability relation is an
equivalence (reflexive, symmetric, transitive). -/
theorem less_than_strict_weak_order :
    (∀ a : Position, less_than_pos a a = false) ∧
    (∀ a b c : Position, less_than_pos a b = true → less_than_pos b c = true →
      less_than_pos a c = true) ∧
    (∀ a : Position, less_than_pos a a = false ∧ less_than_pos a a = false) ∧
    (∀ a b : Position,
      less_than_pos a b = false ∧ less_than_pos b a = false →
      less_than_pos b a = false ∧ less_than_pos a b = false) ∧
    (∀ a b c : Position,
      less_than_pos a b = false ∧ less_than_pos b a = false →
      less_than_pos b c = false ∧ less_than_pos c b = false →
      less_than_pos a c = false ∧ less_than_pos c a = false) := by
  refine ⟨lt_pos_irrefl, fun _ _ _ => lt_pos_trans, fun a => ⟨lt_pos_irrefl a, lt_pos_irrefl a⟩,
    fun _ _ h => ⟨h.2, h.1⟩, fun _ _ _ h1 h2 => ?_⟩
  exact ⟨lt_pos_neg_trans h1.1 h2.1, lt_pos_neg_trans h2.2 h1.2⟩

/-- Witness for C7: transitivity at nodes 1 < 2 < 3 and incomparability
transitivity at three field-equal positions. -/
theorem less_than_strict_weak_order_witness :
    less_than_pos ⟨1, false, 0⟩ ⟨3, false, 0⟩ = true ∧
      (less_than_pos ⟨4, true, 9⟩ ⟨4, true, 9⟩ = false ∧
        less_than_pos ⟨4, true, 9⟩ ⟨4, true, 9⟩ = false) :=
  ⟨less_than_strict_weak_order.2.1 ⟨1, false, 0⟩ ⟨2, false, 0⟩ ⟨3, false, 0⟩
      (by decide) (by decide),
    less_than_strict_weak_order.2.2.2.2 ⟨4, true, 9⟩ ⟨4, true, 9⟩ ⟨4, true, 9⟩
      ⟨by decide, by decide⟩ ⟨by decide, by decide⟩⟩

/-- Claim C8: for any batch size `B ≥ 1`, the output of the full
external pipeline `stream_sort` is order-equivalent to the output of
the in-memory `dumb_sort`: same length and, at every index, derived
keys with identical field triples (equivalent under the Ordering
Model, by `incomp_iff_fields`), though tied records may be permuted. -/
theorem stream_sort_order_equiv_dumb_sort (B : Nat) (input : List Alignment)
    (hB : 1 ≤ B) :
    (stream_sort B input).map keyT = (dumb_sort input).map keyT := by
  have hperm : ((stream_sort B input).map keyT).Perm ((dumb_sort input).map keyT) :=
    ((stream_sort_perm B input).trans (dumb_sort_perm input).symm).map keyT
  have hs1 : ((stream_sort B input).map keyT).Sorted tripLe :=
    List.Pairwise.map keyT (fun a b h => (alnLe_iff_tripLe a b).mp h)
      (stream_sort_sorted B input)
  have hs2 : ((dumb_sort input).map keyT).Sorted tripLe :=
    List.Pairwise.map keyT (fun a b h => (alnLe_iff_tripLe a b).mp h)
      (dumb_sort_sorted input)
  exact List.eq_of_perm_of_sorted hperm hs1 hs2

/-- Witness for C8 at `B = 1` over a three-record input with a tie on
node 5. -/
theorem stream_sort_order_equiv_dumb_sort_witness :
    (stream_sort 1 [(⟨⟨[⟨⟨5, false, 10⟩⟩]⟩⟩ : Alignment), ⟨⟨[⟨⟨3, true, 2⟩⟩]⟩⟩,
        ⟨⟨[⟨⟨5, false, 10⟩⟩]⟩⟩]).map keyT =
      (dumb_sort [(⟨⟨[⟨⟨5, false, 10⟩⟩]⟩⟩ : Alignment), ⟨⟨[⟨⟨3, true, 2⟩⟩]⟩⟩,
        ⟨⟨[⟨⟨5, false, 10⟩⟩]⟩⟩]).map keyT :=
  stream_sort_order_equiv_dumb_sort 1
    [⟨⟨[⟨⟨5, false, 10⟩⟩]⟩⟩, ⟨⟨[⟨⟨3, true, 2⟩⟩]⟩⟩, ⟨⟨[⟨⟨5, false, 10⟩⟩]⟩⟩]
    (by decide)

/-- Claim C9: during the k-way merge, a cursor with no current record
is never selected as the winning cursor while any cursor still has a
record — the priority-queue comparator `cursor_order` sinks empty
cursors — and when the queue's top is an empty cursor the loop stops
without emitting anything, so an empty cursor never contributes a
record to the output. -/
theorem empty_cursor_never_wins :
    (∀ (cs : List (List Alignment)) (b : List Alignment)
        (os : List (List Alignment)),
      extractBest cs = some (b, os) → (∃ c ∈ cs, c ≠ []) → b ≠ []) ∧
    (∀ (fuel : Nat) (cs os : List (List Alignment)),
      extractBest cs = some ([], os) → mergeLoop fuel cs = []) := by
  constructor
  · rintro cs b os h ⟨c, hc, hcne⟩ rfl
    have hmax := extractBest_max h c hc
    rw [cursor_order_nil_left hcne] at hmax
    exact Bool.noConfusion hmax
  · intro fuel cs os h
    cases fuel with
    | zero => rfl
    | succ fuel => rw [mergeLoop, h]

/-- Witness for C9: a queue holding an empty cursor and a one-record
cursor selects the non-empty one; a queue of one empty cursor makes the
merge loop emit nothing. -/
theorem empty_cursor_never_wins_witness :
    ([(⟨⟨[]⟩⟩ : Alignment)] : List Alignment) ≠ [] ∧
      mergeLoop 1 [([] : List Alignment)] = [] :=
  ⟨empty_cursor_never_wins.1 [[], [⟨⟨[]⟩⟩]] [⟨⟨[]⟩⟩] [[]] (by decide)
      ⟨[⟨⟨[]⟩⟩], by decide, by decide⟩,
    empty_cursor_never_wins.2 1 [[]] [] (by decide)⟩

/-- Claim C10: structural field-wise equality `equal_to` coincides
exactly with incomparability under `less_than`: `equal_to a b` holds
iff neither `less_than a b` nor `less_than b a` does. -/
theorem equal_to_iff_not_less_either_way (a b : Position) :
    equal_to_pos a b = true ↔
      (less_than_pos a b = false ∧ less_than_pos b a = false) := by
  rw [incomp_iff_fields]
  simp [equal_to_pos, and_assoc]

end vg
